import Mathlib

/-!
Verification of the Monte Carlo rejection-method integral estimator from
`20170414_CalculatingAnIntegralWithMonteCarloUsingTheRejectionMethod.ipynb`.

The notebook defines (with `MCHist2` identical except for the target function):

```python
def MCHist(n_hist, a, b, fmax):
    score = (b - a)*fmax
    tot_score = 0
    for n in range(1, n_hist):
        x = random.uniform(a, b)
        f = random.uniform(0, fmax)
        f_x = np.exp(x**2)
        if f < f_x:
            tot_score += score
    return tot_score
```

and publishes `tot_score / n_hist` as the integral estimate.

CPython's `random.uniform(lo, hi)` is `lo + (hi - lo) * random()`, where
`random()` is uniform on `[0, 1)`.  The random source is modelled as a stream
of unit deviate pairs `(u, v)`, trial `i` consuming pair `i`: trial `i` draws
`x = a + (b - a) * u_i` and `y = 0 + (fmax - 0) * v_i`.  Floating point is
modelled by the reals.
-/

open MeasureTheory Set

/-- Number of iterations of the loop `for n in range(1, n_hist)`:
`n_hist - 1` when `n_hist ≥ 1`, else `0`. -/
def numTrials (n_hist : ℤ) : ℕ := (n_hist - 1).toNat

/-- CPython `random.uniform lo hi` applied to a unit deviate `u`:
`lo + (hi - lo) * u`. -/
def uniform (lo hi u : ℝ) : ℝ := lo + (hi - lo) * u

/-- One trial scores a hit iff the drawn `f` (called `y` in the spec, the
deviate scaled to the envelope) is strictly below `f_x`. -/
def trialHit (f : ℝ → ℝ) (a b fmax : ℝ) (d : ℝ × ℝ) : Prop :=
  uniform 0 fmax d.2 < f (uniform a b d.1)

open Classical in
/-- Contribution of one trial to `tot_score`: `score = (b - a) * fmax` on a
hit, `0` otherwise. -/
noncomputable def trialScore (f : ℝ → ℝ) (a b fmax : ℝ) (d : ℝ × ℝ) : ℝ :=
  if trialHit f a b fmax d then (b - a) * fmax else 0

/-- The notebook's estimator with the hard-coded target function abstracted
into the parameter `f`; `MCHist` and `MCHist2` instantiate it.  Returns the
final `tot_score`. -/
noncomputable def MCHistGen (f : ℝ → ℝ) (n_hist : ℤ) (a b fmax : ℝ)
    (stream : ℕ → ℝ × ℝ) : ℝ :=
  ∑ i in Finset.range (numTrials n_hist), trialScore f a b fmax (stream i)

/-- `MCHist` from the notebook: target function `np.exp(x**2)`. -/
noncomputable def MCHist (n_hist : ℤ) (a b fmax : ℝ) (stream : ℕ → ℝ × ℝ) : ℝ :=
  MCHistGen (fun x => Real.exp (x ^ 2)) n_hist a b fmax stream

/-- `MCHist2` from the notebook: target function `np.exp(x)/x + np.exp(1/x)`. -/
noncomputable def MCHist2 (n_hist : ℤ) (a b fmax : ℝ) (stream : ℕ → ℝ × ℝ) : ℝ :=
  MCHistGen (fun x => Real.exp x / x + Real.exp (1 / x)) n_hist a b fmax stream

open Classical in
/-- Number of trials of a run that record a hit. -/
noncomputable def hitCount (f : ℝ → ℝ) (n_hist : ℤ) (a b fmax : ℝ)
    (stream : ℕ → ℝ × ℝ) : ℕ :=
  ((Finset.range (numTrials n_hist)).filter
    (fun i => trialHit f a b fmax (stream i))).card

/-- The returned `tot_score` is the number of hits times the per-hit score. -/
theorem MCHistGen_eq_hitCount_mul (f : ℝ → ℝ) (n : ℤ) (a b fmax : ℝ)
    (s : ℕ → ℝ × ℝ) :
    MCHistGen f n a b fmax s = (hitCount f n a b fmax s : ℝ) * ((b - a) * fmax) := by
  classical
  unfold MCHistGen hitCount trialScore
  rw [← Finset.sum_filter, Finset.sum_const, nsmul_eq_mul]

/-- At most one hit per trial. -/
theorem hitCount_le_numTrials (f : ℝ → ℝ) (n : ℤ) (a b fmax : ℝ)
    (s : ℕ → ℝ × ℝ) :
    hitCount f n a b fmax s ≤ numTrials n := by
  classical
  unfold hitCount
  exact le_trans (Finset.card_filter_le _ _) (le_of_eq (Finset.card_range _))

/-- C1: For every interval, envelope, sample count and deviate stream, the
published estimate (the returned value divided by `n`) equals
`(hits / n) * (b - a) * fmax`, where `hits` is the number of trials in which
the drawn `y` satisfied `y < f(x)`. -/
theorem C1_published_estimate (f : ℝ → ℝ) (n : ℤ) (a b fmax : ℝ)
    (s : ℕ → ℝ × ℝ) :
    MCHistGen f n a b fmax s / (n : ℝ) =
      ((hitCount f n a b fmax s : ℝ) / (n : ℝ)) * ((b - a) * fmax) := by
  rw [MCHistGen_eq_hitCount_mul]
  ring

/-- C5: a trial records a hit exactly when the drawn `y` is strictly below
`f(x)`; equality `y = f(x)` counts as a miss (the trial contributes `0`). -/
theorem C5_hit_iff_strict (f : ℝ → ℝ) (a b fmax u v : ℝ) :
    (trialHit f a b fmax (u, v) ↔ uniform 0 fmax v < f (uniform a b u)) ∧
    (uniform 0 fmax v = f (uniform a b u) → trialScore f a b fmax (u, v) = 0) := by
  classical
  refine ⟨Iff.rfl, fun h => ?_⟩
  have hmiss : ¬ trialHit f a b fmax (u, v) := by
    unfold trialHit
    rw [h]
    exact lt_irrefl _
  simp [trialScore, hmiss]

/-- C5 witness: concrete instance of the hit criterion. -/
theorem C5_hit_iff_strict_witness :
    (trialHit (fun _ => (1:ℝ)) 0 1 1 ((0:ℝ), (0:ℝ)) ↔
      uniform 0 1 0 < (fun _ => (1:ℝ)) (uniform 0 1 0)) ∧
    (uniform 0 1 (0:ℝ) = (fun _ => (1:ℝ)) (uniform 0 1 (0:ℝ)) →
      trialScore (fun _ => (1:ℝ)) 0 1 1 ((0:ℝ), (0:ℝ)) = 0) :=
  C5_hit_iff_strict (fun _ => 1) 0 1 1 0 0

/-- C8: the run is a pure function of its arguments and of the consumed prefix
of the random stream: two calls with identical inputs consuming identical
deviates return identical results, and nothing outside the call is touched. -/
theorem C8_pure_function (f : ℝ → ℝ) (n : ℤ) (a b fmax : ℝ)
    (s₁ s₂ : ℕ → ℝ × ℝ) (h : ∀ i < numTrials n, s₁ i = s₂ i) :
    MCHistGen f n a b fmax s₁ = MCHistGen f n a b fmax s₂ := by
  unfold MCHistGen
  exact Finset.sum_congr rfl fun i hi => by rw [h i (Finset.mem_range.mp hi)]

/-- C8 witness: two streams that agree on the single consumed pair give the
same result even though they differ beyond it. -/
theorem C8_pure_function_witness :
    MCHistGen (fun _ => (1:ℝ)) 2 0 1 1 (fun _ => (0, 0)) =
      MCHistGen (fun _ => (1:ℝ)) 2 0 1 1
        (fun i => if i = 0 then ((0:ℝ), (0:ℝ)) else (1, 1)) := by
  refine C8_pure_function _ 2 0 1 1 _ _ fun i hi => ?_
  have h1 : numTrials 2 = 1 := by decide
  rw [h1] at hi
  have h0 : i = 0 := by omega
  simp [h0]

/-- The notebook's publishing step `results / num_hist`.  Python's `/` raises
`ZeroDivisionError` on a zero divisor, modelled as `none`. -/
noncomputable def publishEstimate (results : ℝ) (num_hist : ℤ) : Option ℝ :=
  if num_hist = 0 then none else some (results / (num_hist : ℝ))

/-- C10 counterexample: at `n_hist = 0` the run itself returns `0`, but the
publishing division `results / num_hist` is `0 / 0` and fails
(`ZeroDivisionError`), so the published estimate at zero is a failure, not
`0`. -/
theorem C10_publish_fails_at_zero :
    MCHist 0 0 1 1 (fun _ => (0, 0)) = 0 ∧
    publishEstimate (MCHist 0 0 1 1 (fun _ => (0, 0))) 0 = none ∧
    publishEstimate (MCHist 0 0 1 1 (fun _ => (0, 0))) 0 ≠ some 0 := by
  have h0 : MCHist 0 0 1 1 (fun _ => (0, 0)) = 0 := by
    unfold MCHist MCHistGen
    have hn : numTrials 0 = 0 := by decide
    rw [hn]
    simp
  have hpub : publishEstimate (MCHist 0 0 1 1 (fun _ => (0, 0))) 0 = none := by
    unfold publishEstimate
    simp
  refine ⟨h0, hpub, ?_⟩
  rw [hpub]
  simp

/-- C10 (amended): for every sample count `n_hist ≤ 1` (zero and negative
included) the loop body never runs and `MCHist` returns exactly `0` with no
error; for nonzero such `n_hist` the published estimate is `0`, while at
`n_hist = 0` the publishing division itself fails with `ZeroDivisionError`. -/
theorem C10_small_sample_count (n : ℤ) (a b fmax : ℝ) (s : ℕ → ℝ × ℝ)
    (h : n ≤ 1) :
    numTrials n = 0 ∧ MCHist n a b fmax s = 0 ∧
    (n ≠ 0 → publishEstimate (MCHist n a b fmax s) n = some 0) ∧
    (n = 0 → publishEstimate (MCHist n a b fmax s) n = none) := by
  have h0 : numTrials n = 0 := by
    unfold numTrials
    omega
  have hret : MCHist n a b fmax s = 0 := by
    unfold MCHist MCHistGen
    rw [h0]
    simp
  refine ⟨h0, hret, fun hn => ?_, fun hn => ?_⟩
  · unfold publishEstimate
    rw [if_neg hn, hret, zero_div]
  · unfold publishEstimate
    rw [if_pos hn]

/-- C10 witness: `n_hist = -1` performs no trials, returns `0`, and the
published estimate is `0`. -/
theorem C10_small_sample_count_witness :
    numTrials (-1) = 0 ∧ MCHist (-1) 0 1 1 (fun _ => (0, 0)) = 0 ∧
    ((-1 : ℤ) ≠ 0 →
      publishEstimate (MCHist (-1) 0 1 1 (fun _ => (0, 0))) (-1) = some 0) ∧
    ((-1 : ℤ) = 0 →
      publishEstimate (MCHist (-1) 0 1 1 (fun _ => (0, 0))) (-1) = none) :=
  C10_small_sample_count (-1) 0 1 1 (fun _ => (0, 0)) (by norm_num)

/-- C3 counterexample: on the invalid interval `a = 1 > b = 0` (with `n = 3`,
`fmax = 5`), `MCHist` does not fail with any condition: it runs the loop and
returns the ordinary value `-10`. -/
theorem C3_no_failure_on_invalid_interval :
    MCHist 3 1 0 5 (fun _ => (0, 0)) = -10 := by
  have hhit : trialHit (fun x => Real.exp (x ^ 2)) 1 0 5 ((0:ℝ), (0:ℝ)) := by
    unfold trialHit uniform
    norm_num
    exact Real.exp_pos 1
  have h2 : numTrials 3 = 2 := by decide
  unfold MCHist MCHistGen
  rw [h2]
  rw [Finset.sum_range_succ, Finset.sum_range_succ, Finset.sum_range_zero]
  simp only [trialScore, if_pos hhit]
  norm_num

/-- C3 (amended): the estimator performs no input validation.  On every input,
including `a ≥ b`, `fmax ≤ 0` and `n ≤ 0`, it reports no failure: it runs the
(possibly empty) sampling loop and returns `hits * (b - a) * fmax`. -/
theorem C3_no_validation (f : ℝ → ℝ) (n : ℤ) (a b fmax : ℝ) (s : ℕ → ℝ × ℝ)
    (h : b ≤ a ∨ fmax ≤ 0 ∨ n ≤ 0) :
    MCHistGen f n a b fmax s = (hitCount f n a b fmax s : ℝ) * ((b - a) * fmax) :=
  MCHistGen_eq_hitCount_mul f n a b fmax s

/-- C3 witness: a degenerate interval (`a = b = 1`) is accepted without any
failure and produces the hit-count formula. -/
theorem C3_no_validation_witness :
    MCHistGen (fun _ => (1:ℝ)) 3 1 1 5 (fun _ => (0, 0)) =
      (hitCount (fun _ => (1:ℝ)) 3 1 1 5 (fun _ => (0, 0)) : ℝ) * ((1 - 1) * 5) :=
  C3_no_validation (fun _ => 1) 3 1 1 5 (fun _ => (0, 0)) (Or.inl le_rfl)

/-- C4 counterexample: with `n_hist = 2` the loop `range(1, 2)` performs a
single trial, not two: an all-hit run returns one score, not two. -/
theorem C4_one_trial_short :
    numTrials 2 = 1 ∧ (1 : ℕ) ≠ 2 ∧
    MCHist 2 0 1 1 (fun _ => (0, 0)) = 1 * ((1 - 0) * 1) := by
  refine ⟨by decide, by decide, ?_⟩
  have hhit : trialHit (fun x => Real.exp (x ^ 2)) 0 1 1 ((0:ℝ), (0:ℝ)) := by
    unfold trialHit uniform
    norm_num
  have h1 : numTrials 2 = 1 := by decide
  unfold MCHist MCHistGen
  rw [h1, Finset.sum_range_succ, Finset.sum_range_zero]
  simp only [trialScore, if_pos hhit]
  norm_num

/-- C4 (amended): for `n ≥ 1` the estimator performs exactly `n - 1` trials,
trial `j` consuming its own fresh deviate pair: replacing pair `j` changes
only trial `j`'s contribution. -/
theorem C4_trials_structure (f : ℝ → ℝ) (n : ℤ) (a b fmax : ℝ)
    (s : ℕ → ℝ × ℝ) (hn : 1 ≤ n) :
    (numTrials n : ℤ) = n - 1 ∧
    ∀ j < numTrials n, ∀ d : ℝ × ℝ,
      MCHistGen f n a b fmax (Function.update s j d) =
        MCHistGen f n a b fmax s
          - trialScore f a b fmax (s j) + trialScore f a b fmax d := by
  constructor
  · unfold numTrials
    omega
  · intro j hj d
    classical
    unfold MCHistGen
    have hmem : j ∈ Finset.range (numTrials n) := Finset.mem_range.mpr hj
    have hcomp : (fun i => trialScore f a b fmax (Function.update s j d i)) =
        Function.update (fun i => trialScore f a b fmax (s i)) j
          (trialScore f a b fmax d) := by
      funext i
      by_cases hij : i = j
      · subst hij
        simp [Function.update_same]
      · simp [Function.update_noteq hij]
    rw [show (∑ i in Finset.range (numTrials n),
          trialScore f a b fmax (Function.update s j d i)) =
        ∑ i in Finset.range (numTrials n),
          Function.update (fun i => trialScore f a b fmax (s i)) j
            (trialScore f a b fmax d) i from Finset.sum_congr rfl
              fun i _ => congrFun hcomp i]
    rw [Finset.sum_update_of_mem hmem,
      Finset.sum_eq_add_sum_diff_singleton hmem
        (fun i => trialScore f a b fmax (s i))]
    ring

/-- C4 witness: a two-pair stream with `n = 3` (two trials). -/
theorem C4_trials_structure_witness :
    (numTrials 3 : ℤ) = 3 - 1 ∧
    ∀ j < numTrials 3, ∀ d : ℝ × ℝ,
      MCHistGen (fun _ => (1:ℝ)) 3 0 1 1 (Function.update (fun _ => (0, 0)) j d) =
        MCHistGen (fun _ => (1:ℝ)) 3 0 1 1 (fun _ => (0, 0))
          - trialScore (fun _ => (1:ℝ)) 0 1 1 ((fun _ => ((0:ℝ), (0:ℝ))) j)
          + trialScore (fun _ => (1:ℝ)) 0 1 1 d :=
  C4_trials_structure (fun _ => 1) 3 0 1 1 (fun _ => (0, 0)) (by norm_num)

/-- C9 counterexample: at `n_hist = 0` with `a = 0 < b = 1` and `fmax = 1` the
returned value is `0`, which is not bounded by `(n_hist - 1) * (b - a) * fmax
= -1`; no natural `k ≤ n_hist - 1` exists either. -/
theorem C9_bound_fails_at_zero :
    MCHist 0 0 1 1 (fun _ => (0, 0)) = 0 ∧
    ¬ MCHist 0 0 1 1 (fun _ => (0, 0)) ≤ (((0:ℤ) - 1 : ℤ) : ℝ) * ((1 - 0) * 1) := by
  have h0 : MCHist 0 0 1 1 (fun _ => (0, 0)) = 0 := by
    unfold MCHist MCHistGen
    have : numTrials 0 = 0 := by decide
    rw [this]
    simp
  refine ⟨h0, ?_⟩
  rw [h0]
  norm_num

/-- C9 (amended): the returned value is always `k * (b - a) * fmax` for a
natural `k = hits` with `k ≤ max (n_hist - 1) 0` trials; when `a < b` and
`fmax > 0` it lies in `[0, max (n_hist - 1) 0 * (b - a) * fmax]`. -/
theorem C9_return_range (f : ℝ → ℝ) (n : ℤ) (a b fmax : ℝ) (s : ℕ → ℝ × ℝ)
    (hab : a < b) (hfmax : 0 < fmax) :
    (∃ k : ℕ, k ≤ numTrials n ∧
      MCHistGen f n a b fmax s = (k : ℝ) * ((b - a) * fmax)) ∧
    0 ≤ MCHistGen f n a b fmax s ∧
    MCHistGen f n a b fmax s ≤ (numTrials n : ℝ) * ((b - a) * fmax) := by
  have hk := MCHistGen_eq_hitCount_mul f n a b fmax s
  have hle := hitCount_le_numTrials f n a b fmax s
  have hscore : 0 ≤ (b - a) * fmax :=
    mul_nonneg (by linarith) (le_of_lt hfmax)
  refine ⟨⟨hitCount f n a b fmax s, hle, hk⟩, ?_, ?_⟩
  · rw [hk]
    exact mul_nonneg (Nat.cast_nonneg _) hscore
  · rw [hk]
    exact mul_le_mul_of_nonneg_right (by exact_mod_cast hle) hscore

/-- C9 witness: concrete valid interval and envelope. -/
theorem C9_return_range_witness :
    (∃ k : ℕ, k ≤ numTrials 2 ∧
      MCHistGen (fun _ => (1:ℝ)) 2 0 1 1 (fun _ => (0, 0)) =
        (k : ℝ) * ((1 - 0) * 1)) ∧
    0 ≤ MCHistGen (fun _ => (1:ℝ)) 2 0 1 1 (fun _ => (0, 0)) ∧
    MCHistGen (fun _ => (1:ℝ)) 2 0 1 1 (fun _ => (0, 0)) ≤
      (numTrials 2 : ℝ) * ((1 - 0) * 1) :=
  C9_return_range (fun _ => 1) 2 0 1 1 (fun _ => (0, 0)) (by norm_num) (by norm_num)

/-- C7 counterexample: constant target `f = 1` on `[0, 1]` with `fmax = 1` and
`n = 2`: every sample hits, yet the published estimate is `1/2`, not
`(b - a) * c = 1`. -/
theorem C7_constant_estimate_ne :
    MCHistGen (fun _ => (1:ℝ)) 2 0 1 1 (fun _ => (0, 0)) / (2:ℝ) = 1 / 2 ∧
    ((1:ℝ) - 0) * 1 = 1 ∧ (1 / 2 : ℝ) ≠ 1 := by
  have hhit : trialHit (fun _ => (1:ℝ)) 0 1 1 ((0:ℝ), (0:ℝ)) := by
    unfold trialHit uniform
    norm_num
  have h1 : numTrials 2 = 1 := by decide
  refine ⟨?_, by norm_num, by norm_num⟩
  unfold MCHistGen
  rw [h1, Finset.sum_range_succ, Finset.sum_range_zero]
  simp only [trialScore, if_pos hhit]
  norm_num

/-- C7 (amended): constant target `c > 0` with `fmax = c`: every trial is a
hit and the published estimate equals `((n-1)/n) * (b - a) * c` — the same
value for every stream of `random()` deviates (zero variance) — which
converges to `(b - a) * c` as the sample count grows. -/
theorem C7_constant_function (c a b : ℝ) (n : ℤ) (s : ℕ → ℝ × ℝ) (hc : 0 < c)
    (hn : 1 ≤ n) (hs : ∀ i, (s i).2 < 1) :
    hitCount (fun _ => c) n a b c s = numTrials n ∧
    MCHistGen (fun _ => c) n a b c s / (n : ℝ) =
      (((n : ℝ) - 1) / (n : ℝ)) * ((b - a) * c) ∧
    Filter.Tendsto (fun m : ℕ => (((m : ℝ) - 1) / (m : ℝ)) * ((b - a) * c))
      Filter.atTop (nhds ((b - a) * c)) := by
  classical
  have hhit : ∀ i, trialHit (fun _ => c) a b c (s i) := by
    intro i
    unfold trialHit uniform
    have := mul_lt_mul_of_pos_left (hs i) hc
    simpa using this
  have hcount : hitCount (fun _ => c) n a b c s = numTrials n := by
    unfold hitCount
    rw [Finset.filter_true_of_mem fun i _ => hhit i, Finset.card_range]
  have hcast : (numTrials n : ℝ) = (n : ℝ) - 1 := by
    have : (numTrials n : ℤ) = n - 1 := by
      unfold numTrials
      omega
    exact_mod_cast this
  have hval : MCHistGen (fun _ => c) n a b c s / (n : ℝ) =
      (((n : ℝ) - 1) / (n : ℝ)) * ((b - a) * c) := by
    rw [MCHistGen_eq_hitCount_mul, hcount, hcast]
    ring
  refine ⟨hcount, hval, ?_⟩
  have h2 : Filter.Tendsto (fun m : ℕ => 1 - 1 / (m : ℝ))
      Filter.atTop (nhds 1) := by
    simpa using (tendsto_one_div_atTop_nhds_zero_nat).const_sub 1
  have h1 : Filter.Tendsto (fun m : ℕ => ((m : ℝ) - 1) / (m : ℝ))
      Filter.atTop (nhds 1) := by
    refine h2.congr' ?_
    filter_upwards [Filter.eventually_gt_atTop 0] with m hm
    have hm0 : (m : ℝ) ≠ 0 := Nat.cast_ne_zero.mpr hm.ne'
    field_simp
  simpa using h1.mul_const ((b - a) * c)

/-- C7 witness: concrete constant case `c = 1`, `[a, b] = [0, 1]`, `n = 2`. -/
theorem C7_constant_function_witness :
    hitCount (fun _ => (1:ℝ)) 2 0 1 1 (fun _ => (0, 0)) = numTrials 2 ∧
    MCHistGen (fun _ => (1:ℝ)) 2 0 1 1 (fun _ => (0, 0)) / ((2:ℤ) : ℝ) =
      ((((2:ℤ) : ℝ) - 1) / ((2:ℤ) : ℝ)) * ((1 - 0) * 1) ∧
    Filter.Tendsto (fun m : ℕ => (((m : ℝ) - 1) / (m : ℝ)) * ((1 - 0) * 1))
      Filter.atTop (nhds ((1 - 0) * 1)) :=
  C7_constant_function 1 0 1 2 (fun _ => (0, 0)) (by norm_num) (by norm_num)
    (fun i => by norm_num)

/-- Law of one `random()` call: the uniform distribution on `[0, 1)`. -/
noncomputable def unitMeasure : Measure ℝ := volume.restrict (Ico (0:ℝ) 1)

/-- Law of one trial's deviate pair: two independent `random()` calls. -/
noncomputable def unitPairMeasure : Measure (ℝ × ℝ) :=
  unitMeasure.prod unitMeasure

/-- Joint law of the deviate pairs consumed by a run of `m` trials:
independent copies of `unitPairMeasure`, one per trial. -/
noncomputable def runMeasure (m : ℕ) : Measure (Fin m → ℝ × ℝ) :=
  Measure.pi fun _ => unitPairMeasure

instance : IsProbabilityMeasure unitMeasure := by
  refine ⟨?_⟩
  unfold unitMeasure
  rw [Measure.restrict_apply_univ, Real.volume_Ico]
  norm_num

instance : IsProbabilityMeasure unitPairMeasure := by
  unfold unitPairMeasure
  infer_instance

instance (m : ℕ) : IsProbabilityMeasure (runMeasure m) := by
  unfold runMeasure
  infer_instance

instance : SFinite unitMeasure := by
  unfold unitMeasure
  infer_instance

/-- Each deviate pair of a run is distributed as `unitPairMeasure`. -/
theorem runMeasure_map_eval (m : ℕ) (i : Fin m) :
    (runMeasure m).map (Function.eval i) = unitPairMeasure := by
  classical
  ext t ht
  rw [Measure.map_apply (measurable_pi_apply i) ht]
  have hpre : Set.preimage (Function.eval i) t =
      Set.pi Set.univ
        (Function.update (fun _ : Fin m => (Set.univ : Set (ℝ × ℝ))) i t) := by
    rw [Set.eval_preimage]
  rw [hpre]
  unfold runMeasure
  rw [Measure.pi_pi]
  have hterm : ∀ j : Fin m,
      unitPairMeasure
        (Function.update (fun _ : Fin m => (Set.univ : Set (ℝ × ℝ))) i t j) =
      Function.update (fun _ : Fin m => unitPairMeasure Set.univ) i
        (unitPairMeasure t) j := by
    intro j
    by_cases hj : j = i
    · subst hj
      simp
    · simp [Function.update_noteq hj]
  rw [Finset.prod_congr rfl fun j _ => hterm j,
    Finset.prod_update_of_mem (Finset.mem_univ i)]
  simp [measure_univ]

theorem unitMeasure_def : unitMeasure = volume.restrict (Ico (0:ℝ) 1) := rfl

/-- The hit set of one trial is measurable. -/
theorem measurableSet_trialHit (f : ℝ → ℝ) (a b fmax : ℝ) (hf : Measurable f) :
    MeasurableSet {d : ℝ × ℝ | trialHit f a b fmax d} := by
  unfold trialHit uniform
  exact measurableSet_lt
    (measurable_const.add (measurable_snd.const_mul _))
    (hf.comp (measurable_const.add (measurable_fst.const_mul _)))

/-- The per-trial score is the indicator of the hit set scaled by the score. -/
theorem trialScore_eq_indicator (f : ℝ → ℝ) (a b fmax : ℝ) :
    trialScore f a b fmax =
      Set.indicator {d : ℝ × ℝ | trialHit f a b fmax d}
        (fun _ => (b - a) * fmax) := by
  classical
  funext d
  unfold trialScore
  by_cases h : trialHit f a b fmax d
  · rw [if_pos h]
    exact (Set.indicator_of_mem
      (show d ∈ {d : ℝ × ℝ | trialHit f a b fmax d} from h)
      (fun _ => (b - a) * fmax)).symm
  · rw [if_neg h]
    exact (Set.indicator_of_not_mem
      (show d ∉ {d : ℝ × ℝ | trialHit f a b fmax d} from h)
      (fun _ => (b - a) * fmax)).symm

theorem measurable_trialScore (f : ℝ → ℝ) (a b fmax : ℝ) (hf : Measurable f) :
    Measurable (trialScore f a b fmax) := by
  rw [trialScore_eq_indicator]
  exact measurable_const.indicator (measurableSet_trialHit f a b fmax hf)

theorem integrable_trialScore (f : ℝ → ℝ) (a b fmax : ℝ) (hf : Measurable f) :
    Integrable (trialScore f a b fmax) unitPairMeasure := by
  rw [trialScore_eq_indicator]
  exact (integrable_const _).indicator (measurableSet_trialHit f a b fmax hf)

/-- Distribution of one drawn `y`: the chance that `y < t` is the clamped
ratio `min (t / fmax) 1`. -/
theorem unitMeasure_slice (fmax t : ℝ) (hfmax : 0 < fmax) :
    unitMeasure {v : ℝ | uniform 0 fmax v < t} =
      ENNReal.ofReal (min (t / fmax) 1) := by
  have hset : {v : ℝ | uniform 0 fmax v < t} = Iio (t / fmax) := by
    ext v
    simp only [uniform, mem_setOf_eq, mem_Iio, zero_add, sub_zero]
    rw [mul_comm]
    exact (lt_div_iff hfmax).symm
  rw [hset, unitMeasure_def, Measure.restrict_apply measurableSet_Iio]
  have hint : Iio (t / fmax) ∩ Ico (0:ℝ) 1 = Ico 0 (min (t / fmax) 1) := by
    ext v
    simp only [mem_inter_iff, mem_Iio, mem_Ico, lt_min_iff]
    tauto
  rw [hint, Real.volume_Ico, sub_zero]

/-- Undoing the clamped ratio: `fmax * min (t / fmax) 1 = min t fmax`. -/
theorem envelope_mul_min (fmax : ℝ) (hfmax : 0 < fmax) (t : ℝ) :
    fmax * min (t / fmax) 1 = min t fmax := by
  rcases le_total t fmax with h | h
  · rw [min_eq_left ((div_le_one hfmax).mpr h), min_eq_left h]
    field_simp
  · rw [min_eq_right ((one_le_div hfmax).mpr h), min_eq_right h, mul_one]

/-- A drawn `x` stays in `[a, b]`. -/
theorem uniform_mem_Icc (a b : ℝ) (hab : a ≤ b) (u : ℝ) (hu : u ∈ Ico (0:ℝ) 1) :
    uniform a b u ∈ Set.Icc a b := by
  unfold uniform
  constructor
  · nlinarith [hu.1, hu.2]
  · nlinarith [hu.1, hu.2]

/-- Expected score of a single trial: the envelope-truncated integral of the
target function over the interval. -/
theorem integral_trialScore (f : ℝ → ℝ) (a b fmax : ℝ) (hf : Measurable f)
    (hab : a < b) (hfmax : 0 < fmax) (hf0 : ∀ x ∈ Set.Icc a b, 0 ≤ f x) :
    ∫ d, trialScore f a b fmax d ∂unitPairMeasure =
      ∫ x in a..b, min (f x) fmax := by
  classical
  have hS := measurableSet_trialHit f a b fmax hf
  set G : ℝ → ℝ := fun u => min (f (uniform a b u) / fmax) 1 with hG
  have hGmeas : Measurable G := by
    refine Measurable.min ?_ measurable_const
    exact (hf.comp (measurable_const.add (measurable_id.const_mul _))).div_const _
  have hGnonneg : 0 ≤ᵐ[unitMeasure] G := by
    rw [unitMeasure_def]
    refine (ae_restrict_iff' measurableSet_Ico).mpr
      (Filter.Eventually.of_forall fun u hu => ?_)
    exact le_min
      (div_nonneg (hf0 _ (uniform_mem_Icc a b hab.le u hu)) hfmax.le) zero_le_one
  have hGle : ∀ᵐ u ∂unitMeasure, ‖G u‖ ≤ 1 := by
    rw [unitMeasure_def]
    refine (ae_restrict_iff' measurableSet_Ico).mpr
      (Filter.Eventually.of_forall fun u hu => ?_)
    rw [Real.norm_eq_abs, abs_le]
    refine ⟨?_, min_le_right _ _⟩
    have := le_min
      (div_nonneg (hf0 _ (uniform_mem_Icc a b hab.le u hu)) hfmax.le) zero_le_one
    linarith
  have hGint : Integrable G unitMeasure :=
    Integrable.mono' (integrable_const 1) hGmeas.aestronglyMeasurable hGle
  have hmeasS : unitPairMeasure {d : ℝ × ℝ | trialHit f a b fmax d} =
      ENNReal.ofReal (∫ u, G u ∂unitMeasure) := by
    unfold unitPairMeasure
    rw [Measure.prod_apply hS]
    have hae : ∀ᵐ u ∂(volume.restrict (Ico (0:ℝ) 1)),
        unitMeasure (Set.preimage (Prod.mk u) {d : ℝ × ℝ | trialHit f a b fmax d}) =
          ENNReal.ofReal (G u) := by
      refine (ae_restrict_iff' measurableSet_Ico).mpr
        (Filter.Eventually.of_forall fun u hu => ?_)
      have hpre : Set.preimage (Prod.mk u) {d : ℝ × ℝ | trialHit f a b fmax d} =
          {v : ℝ | uniform 0 fmax v < f (uniform a b u)} := rfl
      rw [hpre, unitMeasure_slice fmax (f (uniform a b u)) hfmax]
    have hcongr :
        ∫⁻ u, unitMeasure
            (Set.preimage (Prod.mk u) {d : ℝ × ℝ | trialHit f a b fmax d}) ∂unitMeasure =
          ∫⁻ u, ENNReal.ofReal (G u) ∂unitMeasure := by
      rw [unitMeasure_def]
      exact lintegral_congr_ae hae
    rw [hcongr, ← ofReal_integral_eq_lintegral_ofReal hGint hGnonneg]
  have hInonneg : 0 ≤ ∫ u, G u ∂unitMeasure := integral_nonneg_of_ae hGnonneg
  rw [trialScore_eq_indicator, integral_indicator_const _ hS, hmeasS,
    ENNReal.toReal_ofReal hInonneg]
  have hIco : ∫ u, G u ∂unitMeasure = ∫ u in (0:ℝ)..1, G u := by
    rw [unitMeasure_def]
    rw [integral_Ico_eq_integral_Ioo,
      intervalIntegral.integral_of_le (by norm_num : (0:ℝ) ≤ 1),
      integral_Ioc_eq_integral_Ioo]
  have hbne : b - a ≠ 0 := by linarith
  have hform : ∀ u : ℝ, G u = (fun x => min (f x / fmax) 1) ((b - a) * u + a) := by
    intro u
    rw [hG]
    have harg : uniform a b u = (b - a) * u + a := by
      unfold uniform
      ring
    simp only
    rw [harg]
  have hsubst : ∫ u in (0:ℝ)..1, G u =
      (b - a)⁻¹ * ∫ x in a..b, min (f x / fmax) 1 := by
    simp only [hform]
    rw [intervalIntegral.integral_comp_mul_add (fun x => min (f x / fmax) 1) hbne a]
    rw [smul_eq_mul]
    norm_num
  rw [hIco, hsubst, smul_eq_mul]
  have hpull : (fmax : ℝ) * ∫ x in a..b, min (f x / fmax) 1 =
      ∫ x in a..b, min (f x) fmax := by
    rw [← intervalIntegral.integral_const_mul]
    simp only [envelope_mul_min fmax hfmax]
  calc (b - a)⁻¹ * (∫ x in a..b, min (f x / fmax) 1) * ((b - a) * fmax)
      = fmax * ∫ x in a..b, min (f x / fmax) 1 := by
        field_simp
        ring
    _ = ∫ x in a..b, min (f x) fmax := hpull

/-- Expected value of the raw value returned by a run: the integral of the
estimator over the joint law of the consumed deviate pairs. -/
noncomputable def expectedReturn (f : ℝ → ℝ) (n : ℤ) (a b fmax : ℝ) : ℝ :=
  ∫ ω : Fin (numTrials n) → ℝ × ℝ,
    MCHistGen f n a b fmax
      (fun i => if h : i < numTrials n then ω ⟨i, h⟩ else (0, 0))
    ∂(runMeasure (numTrials n))

/-- A run only reads the deviate pairs of its trials. -/
theorem MCHistGen_extend (f : ℝ → ℝ) (n : ℤ) (a b fmax : ℝ)
    (ω : Fin (numTrials n) → ℝ × ℝ) :
    MCHistGen f n a b fmax
      (fun i => if h : i < numTrials n then ω ⟨i, h⟩ else (0, 0)) =
      ∑ i : Fin (numTrials n), trialScore f a b fmax (ω i) := by
  unfold MCHistGen
  rw [← Fin.sum_univ_eq_sum_range]
  refine Finset.sum_congr rfl fun i _ => ?_
  simp [i.isLt]

/-- Master expectation formula: a run's expected return is the number of
trials performed times the envelope-truncated integral of the target. -/
theorem expectedReturn_eq (f : ℝ → ℝ) (n : ℤ) (a b fmax : ℝ)
    (hf : Measurable f) (hab : a < b) (hfmax : 0 < fmax)
    (hf0 : ∀ x ∈ Set.Icc a b, 0 ≤ f x) :
    expectedReturn f n a b fmax =
      (numTrials n : ℝ) * ∫ x in a..b, min (f x) fmax := by
  classical
  unfold expectedReturn
  simp only [MCHistGen_extend f n a b fmax]
  have hint : ∀ i : Fin (numTrials n),
      Integrable (fun ω : Fin (numTrials n) → ℝ × ℝ =>
        trialScore f a b fmax (ω i)) (runMeasure (numTrials n)) := by
    intro i
    have hg : Integrable (trialScore f a b fmax) unitPairMeasure :=
      integrable_trialScore f a b fmax hf
    rw [← runMeasure_map_eval (numTrials n) i] at hg
    exact (integrable_map_measure
      ((measurable_trialScore f a b fmax hf).aestronglyMeasurable)
      (measurable_pi_apply i).aemeasurable).mp hg
  rw [integral_finset_sum Finset.univ fun i _ => hint i]
  have hone : ∀ i : Fin (numTrials n),
      (∫ ω, trialScore f a b fmax (ω i) ∂(runMeasure (numTrials n))) =
        ∫ d, trialScore f a b fmax d ∂unitPairMeasure := by
    intro i
    rw [← runMeasure_map_eval (numTrials n) i]
    exact (integral_map (measurable_pi_apply i).aemeasurable
      ((measurable_trialScore f a b fmax hf).aestronglyMeasurable)).symm
  rw [Finset.sum_congr rfl fun i _ => hone i, Finset.sum_const,
    Finset.card_univ, Fintype.card_fin, nsmul_eq_mul,
    integral_trialScore f a b fmax hf hab hfmax hf0]

/-- The envelope-truncated integrand is interval integrable when `f` is. -/
theorem intervalIntegrable_min_envelope (f : ℝ → ℝ) (a b fmax : ℝ)
    (hfi : IntervalIntegrable f volume a b) :
    IntervalIntegrable (fun x => min (f x) fmax) volume a b := by
  have hid : (fun x => min (f x) fmax) =
      fun x => (f x + fmax - |f x - fmax|) / 2 := by
    funext x
    rcases le_total (f x) fmax with h | h
    · rw [min_eq_left h, abs_of_nonpos (by linarith)]
      ring
    · rw [min_eq_right h, abs_of_nonneg (by linarith)]
      ring
  rw [hid]
  exact ((hfi.add (intervalIntegrable_const)).sub
    ((hfi.sub (intervalIntegrable_const)).abs)).div_const 2

/-- C2 counterexample: constant target `f = 1` on `[0, 1]` with `fmax = 1`
and `n = 2`.  The true integral is `1`, but the expected value of the
published estimate is `1/2`: the loop runs `n - 1 = 1` trial while the
estimate divides by `n = 2`. -/
theorem C2_expected_value_biased :
    expectedReturn (fun _ => (1:ℝ)) 2 0 1 1 / (2 : ℝ) = 1 / 2 ∧
    (∫ x in (0:ℝ)..1, (1:ℝ)) = 1 ∧ (1 / 2 : ℝ) ≠ 1 := by
  have h := expectedReturn_eq (fun _ => (1:ℝ)) 2 0 1 1 measurable_const
    (by norm_num) (by norm_num) (fun x _ => by norm_num)
  have h2 : numTrials 2 = 1 := by decide
  rw [h2] at h
  have hint : (∫ x in (0:ℝ)..1, min ((fun _ => (1:ℝ)) x) 1) = 1 := by
    simp
  rw [hint] at h
  refine ⟨?_, by simp, by norm_num⟩
  rw [h]
  norm_num

/-- C2 (amended): for measurable `f` with `0 ≤ f ≤ fmax` on `[a, b]`,
`a < b`, `fmax > 0` and `n ≥ 1`, the expected value of the published
estimate equals `((n-1)/n)` times the true integral of `f` over `[a, b]`
(the code performs `n - 1` trials but divides by `n`). -/
theorem C2_expected_estimate (f : ℝ → ℝ) (n : ℤ) (a b fmax : ℝ)
    (hf : Measurable f) (hab : a < b) (hfmax : 0 < fmax) (hn : 1 ≤ n)
    (hf0 : ∀ x ∈ Set.Icc a b, 0 ≤ f x) (hub : ∀ x ∈ Set.Icc a b, f x ≤ fmax) :
    expectedReturn f n a b fmax / (n : ℝ) =
      (((n : ℝ) - 1) / (n : ℝ)) * ∫ x in a..b, f x := by
  rw [expectedReturn_eq f n a b fmax hf hab hfmax hf0]
  have hmin : ∫ x in a..b, min (f x) fmax = ∫ x in a..b, f x := by
    refine intervalIntegral.integral_congr fun x hx => ?_
    rw [Set.uIcc_of_le hab.le] at hx
    exact min_eq_left (hub x hx)
  have hcast : (numTrials n : ℝ) = (n : ℝ) - 1 := by
    have h1 : (numTrials n : ℤ) = n - 1 := by
      unfold numTrials
      omega
    exact_mod_cast h1
  rw [hmin, hcast]
  ring

/-- C2 witness: the constant case evaluated concretely. -/
theorem C2_expected_estimate_witness :
    expectedReturn (fun _ => (1:ℝ)) 2 0 1 1 / ((2:ℤ) : ℝ) =
      ((((2:ℤ) : ℝ) - 1) / ((2:ℤ) : ℝ)) * ∫ x in (0:ℝ)..1, (fun _ => (1:ℝ)) x :=
  C2_expected_estimate (fun _ => 1) 2 0 1 1 measurable_const (by norm_num)
    (by norm_num) (by norm_num) (fun x _ => by norm_num) (fun x _ => by norm_num)

/-- C6: if the sampled `x` has `f(x) > fmax`, every `random()` deviate
`v < 1` yields a hit; consequently the expectation truncates `f` at the
envelope — it is `(n-1) * ∫ min (f x) fmax`, which is at most
`(n-1) * ∫ f`, so an undersized envelope biases the estimate low. -/
theorem C6_envelope_truncation (f : ℝ → ℝ) (n : ℤ) (a b fmax : ℝ)
    (hf : Measurable f) (hab : a < b) (hfmax : 0 < fmax)
    (hf0 : ∀ x ∈ Set.Icc a b, 0 ≤ f x)
    (hfi : IntervalIntegrable f volume a b) :
    (∀ d : ℝ × ℝ, d.2 < 1 → fmax < f (uniform a b d.1) →
      trialHit f a b fmax d) ∧
    expectedReturn f n a b fmax =
      (numTrials n : ℝ) * ∫ x in a..b, min (f x) fmax ∧
    expectedReturn f n a b fmax ≤ (numTrials n : ℝ) * ∫ x in a..b, f x := by
  refine ⟨?_, expectedReturn_eq f n a b fmax hf hab hfmax hf0, ?_⟩
  · intro d hv hover
    show uniform 0 fmax d.2 < f (uniform a b d.1)
    have hy : uniform 0 fmax d.2 < fmax := by
      unfold uniform
      nlinarith
    exact lt_trans hy hover
  · rw [expectedReturn_eq f n a b fmax hf hab hfmax hf0]
    have hmono : (∫ x in a..b, min (f x) fmax) ≤ ∫ x in a..b, f x :=
      intervalIntegral.integral_mono_on hab.le
        (intervalIntegrable_min_envelope f a b fmax hfi) hfi
        (fun x _ => min_le_left _ _)
    exact mul_le_mul_of_nonneg_left hmono (Nat.cast_nonneg _)

/-- C6 witness: `f = 2` with undersized envelope `fmax = 1` on `[0, 1]`,
`n = 2`. -/
theorem C6_envelope_truncation_witness :
    (∀ d : ℝ × ℝ, d.2 < 1 → (1:ℝ) < (fun _ => (2:ℝ)) (uniform 0 1 d.1) →
      trialHit (fun _ => (2:ℝ)) 0 1 1 d) ∧
    expectedReturn (fun _ => (2:ℝ)) 2 0 1 1 =
      (numTrials 2 : ℝ) * ∫ x in (0:ℝ)..1, min ((fun _ => (2:ℝ)) x) 1 ∧
    expectedReturn (fun _ => (2:ℝ)) 2 0 1 1 ≤
      (numTrials 2 : ℝ) * ∫ x in (0:ℝ)..1, (fun _ => (2:ℝ)) x :=
  C6_envelope_truncation (fun _ => 2) 2 0 1 1 measurable_const (by norm_num)
    (by norm_num) (fun x _ => by norm_num) (intervalIntegrable_const)
